import Mathlib

/-!
Verification of the archive-renaming core of the bulk file renamer
(process_and_rename_zip in streamlit_app.py), shallowly embedded:
entries are identifier/content pairs, the zip container is a list of
entries in enumeration order, fallible reads are Option-valued
contents, and Python library functions (os.path.splitext, int, str.strip,
list.sort with key) are translated faithfully.
-/

/-- An entry of the input archive: identifier plus raw content bytes.
The content is Option-valued: none models an entry whose bytes cannot
be read (the read raises inside the try block). -/
structure FEntry where
  name : String
  content : Option (List Nat)
deriving DecidableEq, Repr

/-- An entry of the output archive: identifier plus content bytes. -/
structure Entry where
  name : String
  content : List Nat
deriving DecidableEq, Repr

/-- The failure taxonomy of the rename operation. -/
inductive RenameError where
  | archiveReadError : RenameError
  | countMismatch (numNames numFiles : Nat) : RenameError
  | entryReadError : RenameError
deriving DecidableEq, Repr

/-- Result of the rename operation: a full output archive or an error
(the Python function returns None after reporting the error). -/
inductive RenameResult where
  | ok (entries : List Entry) : RenameResult
  | error (e : RenameError) : RenameResult
deriving DecidableEq, Repr

/-- Index of the last occurrence of a character in a list, or -1 when
absent, as Python str.rfind. -/
def rfindChar (c : Char) : List Char → Int
  | [] => -1
  | x :: xs =>
    let r := rfindChar c xs
    if r ≥ 0 then r + 1 else if x = c then 0 else -1

/-- The split performed by os.path.splitext (posixpath): the extension
starts at the last dot, provided that dot lies after the last slash and
the characters between the start of the base name and that dot are not
all dots (so dotfiles such as ".png" have no extension). -/
def splitextSplit (p : List Char) : List Char × List Char :=
  let si := rfindChar '/' p
  let di := rfindChar '.' p
  if si < di then
    let leading := (p.drop (si + 1).toNat).take (di - si - 1).toNat
    if leading.any (fun ch => ch != '.') then (p.take di.toNat, p.drop di.toNat)
    else (p, [])
  else (p, [])

/-- Root part of os.path.splitext. -/
def splitextRoot (s : String) : String := ⟨(splitextSplit s.data).1⟩

/-- Extension part of os.path.splitext, including the dot. -/
def splitextExt (s : String) : String := ⟨(splitextSplit s.data).2⟩

/-- Whitespace characters stripped by str.strip and int. -/
def pyIsSpace (c : Char) : Bool :=
  c = ' ' || c = '\t' || c = '\n' || c = '\x0b' || c = '\x0c' || c = '\r'

/-- Strip leading and trailing whitespace from a character list. -/
def stripList (l : List Char) : List Char :=
  ((l.dropWhile pyIsSpace).reverse.dropWhile pyIsSpace).reverse

/-- str.strip with no argument. -/
def pyStrip (s : String) : String := ⟨stripList s.data⟩

/-- Numeric value of a decimal digit character. -/
def digitVal (c : Char) : Nat := c.toNat - 48

/-- Continuation of the Python integer-literal body after a first digit:
further digits, with single underscores allowed only between digits. -/
def parseDigitsGo (acc : Nat) : List Char → Option Nat
  | [] => some acc
  | '_' :: c :: cs =>
    if c.isDigit then parseDigitsGo (acc * 10 + digitVal c) cs else none
  | ['_'] => none
  | c :: cs =>
    if c.isDigit then parseDigitsGo (acc * 10 + digitVal c) cs else none

/-- Body of a Python int literal: nonempty digits, single underscores
only between digits. -/
def parseDigits : List Char → Option Nat
  | [] => none
  | c :: cs => if c.isDigit then parseDigitsGo (digitVal c) cs else none

/-- Python int(str): strip whitespace, optional sign, digit body;
returns none when the string is not a valid integer (ValueError). -/
def pyInt (s : List Char) : Option Int :=
  match stripList s with
  | '+' :: rest => (parseDigits rest).map (fun n => (n : Int))
  | '-' :: rest => (parseDigits rest).map (fun n => -(n : Int))
  | rest => (parseDigits rest).map (fun n => (n : Int))

/-- The sort key of get_number: int of the splitext root of the full
identifier; none models the float(inf) fallback on ValueError. -/
def getNumber (filename : String) : Option Int :=
  pyInt (splitextSplit filename.data).1

/-- Strict order on sort keys: integers ascending, with the none key
(the float(inf) fallback) strictly above every integer. -/
def keyLt : Option Int → Option Int → Bool
  | some a, some b => decide (a < b)
  | some _, none => true
  | none, _ => false

/-- Insert an entry into an already sorted list, after every entry whose
key is less than or equal to its own: the insertion step of a stable
ascending sort by get_number, as list.sort with key=get_number. -/
def insertEntry (x : FEntry) : List FEntry → List FEntry
  | [] => [x]
  | y :: ys =>
    if keyLt (getNumber x.name) (getNumber y.name) then x :: y :: ys
    else y :: insertEntry x ys

/-- Stable ascending sort by get_number: the original_files.sort call. -/
def sortEntries (l : List FEntry) : List FEntry :=
  l.foldl (fun acc x => insertEntry x acc) []

/-- True when the identifier ends with the path separator, as the
endswith check that excludes directory entries. -/
def endsWithSlash (s : String) : Bool :=
  match s.data.getLast? with
  | some c => c == '/'
  | none => false

/-- Drop directory entries from the enumerated list, keeping order. -/
def filterFiles (entries : List FEntry) : List FEntry :=
  entries.filter (fun e => !(endsWithSlash e.name))

/-- The sorted non-directory entries processed by the rename loop. -/
def sortedFiles (entries : List FEntry) : List FEntry :=
  sortEntries (filterFiles entries)

/-- Reading an entry with input_zip.open(name): the lookup goes through
the NameToInfo table, which maps each identifier to the LAST archive
entry bearing it, so a later duplicate shadows earlier ones; none when
the name is absent or the resolved content cannot be read. -/
def readByName (archive : List FEntry) (name : String) : Option (List Nat) :=
  match (archive.filter (fun x => x.name == name)).getLast? with
  | none => none
  | some y => y.content

/-- The rename loop: pair each sorted entry with its positional name,
emit an output entry named strip(name) ++ ext whose bytes are read by
reopening the entry through its identifier (readByName); abort with
none as soon as a read fails. -/
def renameLoop (archive : List FEntry) :
    List FEntry → List String → Option (List Entry)
  | [], _ => some []
  | _ :: _, [] => none
  | e :: es, n :: ns =>
    match readByName archive e.name with
    | none => none
    | some c =>
      match renameLoop archive es ns with
      | none => none
      | some rest => some (⟨pyStrip n ++ splitextExt e.name, c⟩ :: rest)

/-- The whole process_and_rename_zip: a none input models an archive
that cannot be opened or parsed; otherwise filter directories, sort
numerically, check the counts, then run the rename loop. -/
def processAndRenameZip (inputZip : Option (List FEntry))
    (newNamesList : List String) : RenameResult :=
  match inputZip with
  | none => .error .archiveReadError
  | some entries =>
    let originalFiles := sortedFiles entries
    if originalFiles.length ≠ newNamesList.length then
      .error (.countMismatch newNamesList.length originalFiles.length)
    else
      match renameLoop entries originalFiles newNamesList with
      | none => .error .entryReadError
      | some out => .ok out

/-- Extension as described by the spec sentence: the substring of the
identifier from (and including) the last dot, or empty when the
identifier holds no dot. Stated from the spec wording, for comparison
with splitextExt. -/
def specExt (s : String) : String :=
  let di := rfindChar '.' s.data
  if di ≥ 0 then ⟨s.data.drop di.toNat⟩ else ""

/-- The identifier the rename loop gives the entry at position i. -/
def outputName (e : FEntry) (n : String) : String :=
  pyStrip n ++ splitextExt e.name

/-! ### Order lemmas for the sort key -/

theorem keyLt_irrefl (a : Option Int) : keyLt a a = false := by
  cases a <;> simp [keyLt]

theorem keyLt_asymm {a b : Option Int} (h : keyLt a b = true) :
    keyLt b a = false := by
  cases a <;> cases b <;> simp_all [keyLt]
  omega

theorem keyLt_trans_nlt {a b c : Option Int} (h1 : keyLt a b = true)
    (h2 : keyLt c b = false) : keyLt a c = true := by
  cases a <;> cases b <;> cases c <;> simp_all [keyLt]
  omega

/-- Sortedness of an entry list: every earlier key is less than or
equal to every later key, phrased through keyLt. -/
def sortedByKey (l : List FEntry) : Prop :=
  List.Pairwise (fun a b => keyLt (getNumber b.name) (getNumber a.name) = false) l

theorem mem_insertEntry {a x : FEntry} {l : List FEntry} :
    a ∈ insertEntry x l ↔ a = x ∨ a ∈ l := by
  induction l with
  | nil => simp [insertEntry]
  | cons y ys ih =>
    simp only [insertEntry]
    split
    · simp [List.mem_cons]
    · simp only [List.mem_cons, ih]
      tauto

theorem length_insertEntry (x : FEntry) (l : List FEntry) :
    (insertEntry x l).length = l.length + 1 := by
  induction l with
  | nil => simp [insertEntry]
  | cons y ys ih =>
    simp only [insertEntry]
    split <;> simp [ih]

theorem sorted_insertEntry {l : List FEntry} (x : FEntry)
    (h : sortedByKey l) : sortedByKey (insertEntry x l) := by
  induction l with
  | nil => simp [insertEntry, sortedByKey]
  | cons y ys ih =>
    rcases List.pairwise_cons.mp h with ⟨hy, hys⟩
    simp only [insertEntry]
    split
    next hlt =>
      refine List.pairwise_cons.mpr ⟨?_, h⟩
      intro z hz
      rcases List.mem_cons.mp hz with rfl | hz2
      · exact keyLt_asymm hlt
      · exact keyLt_asymm (keyLt_trans_nlt hlt (hy z hz2))
    next hlt =>
      refine List.pairwise_cons.mpr ⟨?_, ih hys⟩
      intro z hz
      rcases mem_insertEntry.mp hz with rfl | hz2
      · exact Bool.not_eq_true _ ▸ (by simpa using hlt)
      · exact hy z hz2

theorem key_ne_of_lt_head {q : Option Int} {y : FEntry} {ys : List FEntry}
    (h : sortedByKey (y :: ys)) (hq : keyLt q (getNumber y.name) = true) :
    ∀ z ∈ y :: ys, getNumber z.name ≠ q := by
  intro z hz he
  rcases List.mem_cons.mp hz with rfl | hz2
  · rw [he] at hq
    simp [keyLt_irrefl] at hq
  · have h1 := (List.pairwise_cons.mp h).1 z hz2
    have h2 := keyLt_trans_nlt hq h1
    rw [he] at h2
    simp [keyLt_irrefl] at h2

theorem filter_insertEntry (x : FEntry) (q : Option Int) {l : List FEntry}
    (h : sortedByKey l) :
    (insertEntry x l).filter (fun e => decide (getNumber e.name = q)) =
      l.filter (fun e => decide (getNumber e.name = q)) ++
        (if getNumber x.name = q then [x] else []) := by
  induction l with
  | nil =>
    simp only [insertEntry, List.filter_cons, List.filter_nil]
    split <;> simp_all
  | cons y ys ih =>
    rcases List.pairwise_cons.mp h with ⟨hy, hys⟩
    simp only [insertEntry]
    split
    next hlt =>
      by_cases hxq : getNumber x.name = q
      · have hall := key_ne_of_lt_head h (hxq ▸ hlt)
        have hfil : (y :: ys).filter (fun e => decide (getNumber e.name = q)) = [] := by
          rw [List.filter_eq_nil_iff]
          intro z hz
          simpa using hall z hz
        simp [List.filter_cons, hxq, hfil]
      · simp [List.filter_cons, hxq]
    next hlt =>
      simp only [List.filter_cons]
      by_cases hyq : getNumber y.name = q
      · simp [hyq, ih hys]
      · simp [hyq, ih hys]

/-! ### Lemmas about the full sort -/

theorem sortAux_length (l acc : List FEntry) :
    (l.foldl (fun a x => insertEntry x a) acc).length = acc.length + l.length := by
  induction l generalizing acc with
  | nil => simp
  | cons x xs ih =>
    simp only [List.foldl_cons, ih, length_insertEntry, List.length_cons]
    omega

theorem sortAux_mem (l acc : List FEntry) (a : FEntry) :
    a ∈ l.foldl (fun a x => insertEntry x a) acc ↔ a ∈ acc ∨ a ∈ l := by
  induction l generalizing acc with
  | nil => simp
  | cons x xs ih =>
    simp only [List.foldl_cons, ih, mem_insertEntry, List.mem_cons]
    tauto

theorem sortAux_sorted (l : List FEntry) {acc : List FEntry}
    (h : sortedByKey acc) :
    sortedByKey (l.foldl (fun a x => insertEntry x a) acc) := by
  induction l generalizing acc with
  | nil => simpa
  | cons x xs ih => exact ih (sorted_insertEntry x h)

theorem sortAux_filter (l : List FEntry) {acc : List FEntry} (q : Option Int)
    (h : sortedByKey acc) :
    (l.foldl (fun a x => insertEntry x a) acc).filter
        (fun e => decide (getNumber e.name = q)) =
      acc.filter (fun e => decide (getNumber e.name = q)) ++
        l.filter (fun e => decide (getNumber e.name = q)) := by
  induction l generalizing acc with
  | nil => simp
  | cons x xs ih =>
    rw [List.foldl_cons, ih (sorted_insertEntry x h),
      filter_insertEntry x q h, List.filter_cons]
    by_cases hxq : getNumber x.name = q
    · simp [hxq]
    · simp [hxq]

theorem length_sortEntries (l : List FEntry) :
    (sortEntries l).length = l.length := by
  simpa using sortAux_length l []

theorem mem_sortEntries {a : FEntry} {l : List FEntry} :
    a ∈ sortEntries l ↔ a ∈ l := by
  simpa using sortAux_mem l [] a

theorem sorted_sortEntries (l : List FEntry) : sortedByKey (sortEntries l) :=
  sortAux_sorted l (by simp [sortedByKey])

theorem filter_sortEntries (l : List FEntry) (q : Option Int) :
    (sortEntries l).filter (fun e => decide (getNumber e.name = q)) =
      l.filter (fun e => decide (getNumber e.name = q)) := by
  simpa using sortAux_filter l q (by simp [sortedByKey])

/-! ### Lemmas about the name lookup -/

theorem readByName_exists_shadow (archive : List FEntry) {e : FEntry}
    (he : e ∈ archive) :
    ∃ y ∈ archive, y.name = e.name ∧ readByName archive e.name = y.content := by
  have hmem : e ∈ archive.filter (fun x => x.name == e.name) := by
    simp [List.mem_filter, he]
  have hne : archive.filter (fun x => x.name == e.name) ≠ [] :=
    List.ne_nil_of_mem hmem
  refine ⟨(archive.filter (fun x => x.name == e.name)).getLast hne, ?_, ?_, ?_⟩
  · exact List.mem_of_mem_filter (List.getLast_mem hne)
  · have hlm := List.mem_filter.mp (List.getLast_mem hne)
    simpa using hlm.2
  · unfold readByName
    rw [List.getLast?_eq_getLast _ hne]

theorem readByName_readable (entries : List FEntry)
    (hread : ∀ e ∈ entries, e.content ≠ none) {e : FEntry} (he : e ∈ entries) :
    readByName entries e.name ≠ none := by
  obtain ⟨y, hy, _, hr⟩ := readByName_exists_shadow entries he
  rw [hr]
  exact hread y hy

theorem filter_name_singleton :
    ∀ (l : List FEntry),
      ((l.filter (fun x => !(endsWithSlash x.name))).map FEntry.name).Nodup →
      ∀ {e : FEntry}, e ∈ l.filter (fun x => !(endsWithSlash x.name)) →
      l.filter (fun x => x.name == e.name) = [e] := by
  intro l
  induction l with
  | nil =>
    intro _ e he
    simp at he
  | cons a rest ih =>
    intro hnd e he
    by_cases hPa : endsWithSlash a.name = false
    · rw [List.filter_cons_of_pos (by simp [hPa])] at hnd he
      rw [List.map_cons, List.nodup_cons] at hnd
      obtain ⟨hnot, hnd2⟩ := hnd
      rcases List.mem_cons.mp he with rfl | he2
      · rw [List.filter_cons_of_pos (by simp)]
        have hrest : rest.filter (fun x => x.name == e.name) = [] := by
          rw [List.filter_eq_nil_iff]
          intro x hx hxe
          have hxn : x.name = e.name := by simpa using hxe
          have hxf : x ∈ rest.filter (fun x => !(endsWithSlash x.name)) := by
            simp [List.mem_filter, hx, hxn, hPa]
          exact hnot (hxn ▸ List.mem_map_of_mem FEntry.name hxf)
        rw [hrest]
      · have hne : ¬(a.name == e.name) = true := by
          intro hae
          have han : a.name = e.name := by simpa using hae
          exact hnot (han ▸ List.mem_map_of_mem FEntry.name he2)
        rw [List.filter_cons, if_neg hne]
        exact ih hnd2 he2
    · rw [List.filter_cons_of_neg (by simp [Bool.not_eq_false] at hPa; simp [hPa])] at hnd he
      have hPe : endsWithSlash e.name = false := by
        have := (List.mem_filter.mp he).2
        simpa using this
      have hne : ¬(a.name == e.name) = true := by
        intro hae
        have han : a.name = e.name := by simpa using hae
        rw [han, hPe] at hPa
        exact hPa rfl
      rw [List.filter_cons, if_neg hne]
      exact ih hnd he

theorem readByName_of_nodup (entries : List FEntry)
    (hnd : ((filterFiles entries).map FEntry.name).Nodup) {e : FEntry}
    (he : e ∈ filterFiles entries) :
    readByName entries e.name = e.content := by
  have hsing := filter_name_singleton entries hnd he
  unfold readByName
  rw [hsing]
  rfl

theorem readByName_filterFiles (entries : List FEntry) (fname : String)
    (hf : endsWithSlash fname = false) :
    readByName (filterFiles entries) fname = readByName entries fname := by
  unfold readByName filterFiles
  rw [List.filter_filter]
  have hfe : ∀ x ∈ entries,
      ((x.name == fname) && !(endsWithSlash x.name)) = (x.name == fname) := by
    intro x _
    cases hb : (x.name == fname) with
    | false => simp
    | true =>
      have hxn : x.name = fname := by simpa using hb
      simp [hxn, hf]
  rw [List.filter_congr hfe]

/-! ### Lemmas about the rename loop and the whole operation -/

theorem renameLoop_congr (a1 a2 : List FEntry) :
    ∀ (l : List FEntry) (ns : List String),
      (∀ e ∈ l, readByName a1 e.name = readByName a2 e.name) →
      renameLoop a1 l ns = renameLoop a2 l ns := by
  intro l
  induction l with
  | nil => intro ns _; rfl
  | cons e es ih =>
    intro ns h
    cases ns with
    | nil => rfl
    | cons n ns2 =>
      simp only [renameLoop]
      rw [h e (List.mem_cons_self e es),
        ih ns2 (fun x hx => h x (List.mem_cons_of_mem e hx))]

theorem renameLoop_eq (archive : List FEntry) (l : List FEntry) (ns : List String)
    (hlen : l.length = ns.length)
    (hread : ∀ e ∈ l, readByName archive e.name ≠ none) :
    renameLoop archive l ns =
      some (List.zipWith (fun e n => Entry.mk (outputName e n)
        ((readByName archive e.name).getD [])) l ns) := by
  induction l generalizing ns with
  | nil =>
    cases ns with
    | nil => rfl
    | cons n ns2 => simp at hlen
  | cons e es ih =>
    cases ns with
    | nil => simp at hlen
    | cons n ns2 =>
      obtain ⟨c, hc⟩ := Option.ne_none_iff_exists'.mp (hread e (List.mem_cons_self e es))
      have hlen2 : es.length = ns2.length := by simpa using hlen
      have hread2 : ∀ e2 ∈ es, readByName archive e2.name ≠ none := fun e2 he2 =>
        hread e2 (List.mem_cons_of_mem e he2)
      simp [renameLoop, hc, ih ns2 hlen2 hread2, outputName]

theorem renameLoop_some_inv (archive : List FEntry) (l : List FEntry)
    (ns : List String) (out : List Entry)
    (h : renameLoop archive l ns = some out) :
    (∀ e ∈ l, readByName archive e.name ≠ none) ∧ l.length ≤ ns.length ∧
      out = List.zipWith (fun e n => Entry.mk (outputName e n)
        ((readByName archive e.name).getD [])) l ns := by
  induction l generalizing ns out with
  | nil =>
    refine ⟨by simp, by simp, ?_⟩
    simp only [renameLoop] at h
    simp [← Option.some_inj.mp h]
  | cons e es ih =>
    cases ns with
    | nil => simp [renameLoop] at h
    | cons n ns2 =>
      simp only [renameLoop] at h
      cases hc : readByName archive e.name with
      | none => rw [hc] at h; simp at h
      | some c =>
        rw [hc] at h
        cases hr : renameLoop archive es ns2 with
        | none => rw [hr] at h; simp at h
        | some rest =>
          rw [hr] at h
          obtain ⟨hread2, hle2, hout2⟩ := ih ns2 rest hr
          refine ⟨?_, by simpa using hle2, ?_⟩
          · intro e2 he2
            rcases List.mem_cons.mp he2 with rfl | he3
            · simp [hc]
            · exact hread2 e2 he3
          · rw [← Option.some_inj.mp h]
            simp [outputName, hc, hout2]

theorem length_sortedFiles (entries : List FEntry) :
    (sortedFiles entries).length = (filterFiles entries).length :=
  length_sortEntries (filterFiles entries)

theorem process_ok_eq (entries : List FEntry) (names : List String)
    (hlen : (filterFiles entries).length = names.length)
    (hread : ∀ e ∈ filterFiles entries, readByName entries e.name ≠ none) :
    processAndRenameZip (some entries) names =
      .ok (List.zipWith (fun e n => Entry.mk (outputName e n)
        ((readByName entries e.name).getD [])) (sortedFiles entries) names) := by
  have hlen2 : (sortedFiles entries).length = names.length := by
    rw [length_sortedFiles]; exact hlen
  have hread2 : ∀ e ∈ sortedFiles entries, readByName entries e.name ≠ none :=
    fun e he => hread e (mem_sortEntries.mp he)
  simp only [processAndRenameZip]
  rw [if_neg (by simp [hlen2]), renameLoop_eq _ _ _ hlen2 hread2]

theorem process_ok_inv (input : Option (List FEntry)) (names : List String)
    (out : List Entry) (h : processAndRenameZip input names = .ok out) :
    ∃ entries, input = some entries ∧
      (filterFiles entries).length = names.length ∧
      (∀ e ∈ filterFiles entries, readByName entries e.name ≠ none) ∧
      out = List.zipWith (fun e n => Entry.mk (outputName e n)
        ((readByName entries e.name).getD [])) (sortedFiles entries) names := by
  cases input with
  | none => simp [processAndRenameZip] at h
  | some entries =>
    refine ⟨entries, rfl, ?_⟩
    simp only [processAndRenameZip] at h
    by_cases hlen : (sortedFiles entries).length ≠ names.length
    · rw [if_pos hlen] at h; simp at h
    · rw [if_neg hlen] at h
      cases hr : renameLoop entries (sortedFiles entries) names with
      | none => rw [hr] at h; simp at h
      | some o =>
        rw [hr] at h
        obtain ⟨hread2, _, hout2⟩ := renameLoop_some_inv _ _ _ _ hr
        have hlen2 : (sortedFiles entries).length = names.length := by
          by_contra hne; exact hlen hne
        refine ⟨by rw [← length_sortedFiles]; exact hlen2, ?_, ?_⟩
        · intro e he
          exact hread2 e (mem_sortEntries.mpr he)
        · have ho : o = out := by simpa using h
          rw [← ho]
          exact hout2

theorem zipWith_left_map {α β γ : Type} (f : α → γ) :
    ∀ (l1 : List α) (l2 : List β), l1.length ≤ l2.length →
      List.zipWith (fun a _ => f a) l1 l2 = l1.map f := by
  intro l1
  induction l1 with
  | nil => intro l2 _; simp
  | cons a as ih =>
    intro l2 hle
    cases l2 with
    | nil => simp at hle
    | cons b bs => simp [ih bs (by simpa using hle)]

theorem stripList_eq_nil {l : List Char} (h : ∀ c ∈ l, pyIsSpace c = true) :
    stripList l = [] := by
  unfold stripList
  rw [List.dropWhile_eq_nil_iff.mpr h]
  simp

theorem pyStrip_eq_empty {s : String} (h : ∀ c ∈ s.data, pyIsSpace c = true) :
    pyStrip s = "" := by
  unfold pyStrip
  rw [stripList_eq_nil h]

/-! ### Claim theorems -/

/-- C1 counterexample: on an archive holding two entries both named
"1.jpg" with contents A then B, the operation succeeds but reopening by
name resolves both reads to the last duplicate, so the output contents
are B, B — not positionally identical to the sorted input contents A,
B, although the name count matches and every content is readable. -/
theorem rename_contents_cex :
    processAndRenameZip
        (some [⟨"1.jpg", some [65]⟩, ⟨"1.jpg", some [66]⟩]) ["a", "b"] =
      .ok [⟨"a.jpg", [66]⟩, ⟨"b.jpg", [66]⟩] ∧
    ([Entry.mk "a.jpg" [66], Entry.mk "b.jpg" [66]]).map Entry.content ≠
      (sortedFiles [⟨"1.jpg", some [65]⟩, ⟨"1.jpg", some [66]⟩]).map
        (fun e => e.content.getD []) := by decide

/-- C1 amended: when additionally the non-directory entry identifiers
are pairwise distinct (so no entry is shadowed in the by-name lookup),
a name count equal to the non-directory entry count and readable
contents make the rename succeed with exactly that many entries, the
content at each index byte-identical to the content of the sorted input
entry at that index. -/
theorem rename_ok_counts_and_contents (entries : List FEntry)
    (names : List String)
    (hnames : ((filterFiles entries).map FEntry.name).Nodup)
    (hlen : names.length = (filterFiles entries).length)
    (hread : ∀ e ∈ entries, e.content ≠ none) :
    ∃ out, processAndRenameZip (some entries) names = .ok out ∧
      out.length = (filterFiles entries).length ∧
      out.map Entry.content = (sortedFiles entries).map (fun e => e.content.getD []) := by
  have hread2 : ∀ e ∈ filterFiles entries, readByName entries e.name ≠ none :=
    fun e he => readByName_readable entries hread (List.mem_of_mem_filter he)
  have hle : (sortedFiles entries).length ≤ names.length := by
    rw [length_sortedFiles, hlen]
  refine ⟨_, process_ok_eq entries names hlen.symm hread2, ?_, ?_⟩
  · rw [List.length_zipWith, length_sortedFiles, hlen]
    simp
  · rw [List.map_zipWith,
      zipWith_left_map (fun e => (readByName entries e.name).getD []) _ _ hle]
    apply List.map_congr_left
    intro e he
    rw [readByName_of_nodup entries hnames (mem_sortEntries.mp he)]

/-- C1 amended witness: a concrete three-entry archive with distinct
identifiers and matching names. -/
theorem rename_ok_counts_and_contents_witness :
    ∃ out, processAndRenameZip
        (some [⟨"2.jpg", some [2]⟩, ⟨"10.jpg", some [10]⟩, ⟨"1.jpg", some [1]⟩])
        ["a", "b", "c"] = .ok out ∧
      out.length = (filterFiles
        [⟨"2.jpg", some [2]⟩, ⟨"10.jpg", some [10]⟩, ⟨"1.jpg", some [1]⟩]).length ∧
      out.map Entry.content = (sortedFiles
        [⟨"2.jpg", some [2]⟩, ⟨"10.jpg", some [10]⟩, ⟨"1.jpg", some [1]⟩]).map
          (fun e => e.content.getD []) :=
  rename_ok_counts_and_contents _ _ (by decide) (by decide) (by decide)

/-- C2: the sorted list is ascending in the numeric key extracted by
get_number, every entry whose base name is not a valid integer comes
after all numeric entries, and base names 2, 10, 1 are ordered
numerically as 1, 2, 10, never lexicographically. -/
theorem sort_numeric_ascending :
    (∀ l : List FEntry, List.Pairwise
        (fun a b => keyLt (getNumber b.name) (getNumber a.name) = false)
        (sortEntries l)) ∧
    (∀ l : List FEntry, List.Pairwise
        (fun a b => getNumber a.name = none → getNumber b.name = none)
        (sortEntries l)) ∧
    (sortEntries [⟨"2.jpg", some []⟩, ⟨"10.jpg", some []⟩, ⟨"1.jpg", some []⟩]).map
        FEntry.name = ["1.jpg", "2.jpg", "10.jpg"] := by
  refine ⟨fun l => sorted_sortEntries l, fun l => ?_, by decide⟩
  refine (sorted_sortEntries l).imp ?_
  intro a b hab hna
  cases hkb : getNumber b.name with
  | none => rfl
  | some v =>
    rw [hna, hkb] at hab
    simp [keyLt] at hab

/-- C3: when the name count differs from the non-directory entry count,
the operation fails with a count mismatch carrying both counts, for any
entry contents whatsoever, so no entry is processed. -/
theorem rename_count_mismatch (entries : List FEntry) (names : List String)
    (hne : names.length ≠ (filterFiles entries).length) :
    processAndRenameZip (some entries) names =
      .error (.countMismatch names.length (filterFiles entries).length) := by
  simp only [processAndRenameZip]
  rw [if_pos, length_sortedFiles]
  rw [length_sortedFiles]
  omega

/-- C3 witness: one unreadable file entry against two names. -/
theorem rename_count_mismatch_witness :
    processAndRenameZip (some [⟨"1.png", none⟩]) ["a", "b"] =
      .error (.countMismatch 2 1) :=
  rename_count_mismatch [⟨"1.png", none⟩] ["a", "b"] (by decide)

/-- C4 counterexample: on the dotfile-style entry ".png" the code keeps
no extension (os.path.splitext yields an empty extension), so the output
identifier is "x", while the claimed substring-from-last-dot rule
predicts "x.png". -/
theorem rename_ext_last_dot_cex :
    processAndRenameZip (some [⟨".png", some [1]⟩]) ["x"] = .ok [⟨"x", [1]⟩] ∧
    pyStrip "x" ++ specExt ".png" = "x.png" ∧
    ("x" : String) ≠ "x.png" := by decide

/-- C4 amended: each output identifier is the stripped positional name
concatenated with the splitext extension of the sorted source entry,
where the extension starts at the last dot only when that dot lies after
the last separator and the base name is not a leading run of dots;
entry "3.png" with name " photo " yields "photo.png" and entry "report"
with name "final" yields "final". -/
theorem rename_output_names (entries : List FEntry) (names : List String)
    (hlen : names.length = (filterFiles entries).length)
    (hread : ∀ e ∈ entries, e.content ≠ none) :
    (∃ out, processAndRenameZip (some entries) names = .ok out ∧
      out.map Entry.name =
        List.zipWith (fun e n => pyStrip n ++ splitextExt e.name)
          (sortedFiles entries) names) ∧
    pyStrip " photo " ++ splitextExt "3.png" = "photo.png" ∧
    pyStrip "final" ++ splitextExt "report" = "final" := by
  refine ⟨⟨_, process_ok_eq entries names hlen.symm
    (fun e he => readByName_readable entries hread (List.mem_of_mem_filter he)),
    ?_⟩, by decide, by decide⟩
  rw [List.map_zipWith]
  rfl

/-- C4 amended witness: concrete entries with and without extension. -/
theorem rename_output_names_witness :
    (∃ out, processAndRenameZip
        (some [⟨"3.png", some [9]⟩, ⟨"report", some [8]⟩]) [" photo ", "final"] =
          .ok out ∧
      out.map Entry.name =
        List.zipWith (fun e n => pyStrip n ++ splitextExt e.name)
          (sortedFiles [⟨"3.png", some [9]⟩, ⟨"report", some [8]⟩])
          [" photo ", "final"]) ∧
    pyStrip " photo " ++ splitextExt "3.png" = "photo.png" ∧
    pyStrip "final" ++ splitextExt "report" = "final" :=
  rename_output_names _ _ (by decide) (by decide)

/-- C5: the sort is stable: restricted to any fixed key, numeric or the
non-numeric fallback, the sorted list keeps the original enumeration
order, and the non-numeric base names "b", "a" stay in that order. -/
theorem sort_stable :
    (∀ (l : List FEntry) (q : Option Int),
        (sortEntries l).filter (fun e => decide (getNumber e.name = q)) =
          l.filter (fun e => decide (getNumber e.name = q))) ∧
    (sortEntries [⟨"b", some []⟩, ⟨"a", some []⟩]).map FEntry.name = ["b", "a"] :=
  ⟨filter_sortEntries, by decide⟩

/-- C6: entries whose identifier ends with the separator are excluded
entirely: deleting them from the input changes nothing, neither the
count check nor the output, for any name list; concretely, the
unreadable directory entry "images/" is skipped and only "1.txt" is
renamed. -/
theorem rename_ignores_directories :
    (∀ (entries : List FEntry) (names : List String),
        processAndRenameZip (some entries) names =
          processAndRenameZip
            (some (entries.filter (fun e => !(endsWithSlash e.name)))) names) ∧
    processAndRenameZip (some [⟨"images/", none⟩, ⟨"1.txt", some [7]⟩]) ["a"] =
      .ok [⟨"a.txt", [7]⟩] := by
  constructor
  · intro entries names
    have hff : filterFiles (entries.filter (fun e => !(endsWithSlash e.name))) =
        filterFiles entries := by
      simp [filterFiles, List.filter_filter]
    have hsf : sortedFiles (entries.filter (fun e => !(endsWithSlash e.name))) =
        sortedFiles entries := by
      unfold sortedFiles
      rw [hff]
    have hrl : renameLoop (entries.filter (fun e => !(endsWithSlash e.name)))
        (sortedFiles entries) names = renameLoop entries (sortedFiles entries) names := by
      apply renameLoop_congr
      intro e he
      have hef : e ∈ filterFiles entries := mem_sortEntries.mp he
      have hns : endsWithSlash e.name = false := by
        have hp := (List.mem_filter.mp hef).2
        simpa using hp
      exact readByName_filterFiles entries e.name hns
    simp only [processAndRenameZip, hsf, hrl]
  · decide

/-- C7: a successful result is always a complete archive: the input was
readable, every by-name read of a sorted non-directory entry succeeded,
and the output is the full list pairing every sorted entry with its
positional name, one output entry per non-directory input entry; hence
any fault during processing yields an error value carrying no archive,
never a partial one. -/
theorem rename_no_partial_output (input : Option (List FEntry))
    (names : List String) (out : List Entry)
    (h : processAndRenameZip input names = .ok out) :
    ∃ entries, input = some entries ∧
      out.length = (filterFiles entries).length ∧
      (∀ e ∈ filterFiles entries, readByName entries e.name ≠ none) ∧
      out = List.zipWith (fun e n => Entry.mk (outputName e n)
        ((readByName entries e.name).getD [])) (sortedFiles entries) names := by
  obtain ⟨entries, hin, hlen, hread, hout⟩ := process_ok_inv input names out h
  refine ⟨entries, hin, ?_, hread, hout⟩
  rw [hout, List.length_zipWith, length_sortedFiles, hlen]
  simp

/-- C7 witness: an archive with a shadowed unreadable duplicate still
succeeds, and the successful output is the complete two-entry list. -/
theorem rename_no_partial_output_witness :
    ∃ entries, (some [FEntry.mk "1.png" none, FEntry.mk "1.png" (some [5])]) =
        some entries ∧
      ([Entry.mk "a.png" [5], Entry.mk "b.png" [5]]).length =
        (filterFiles entries).length ∧
      (∀ e ∈ filterFiles entries, readByName entries e.name ≠ none) ∧
      [Entry.mk "a.png" [5], Entry.mk "b.png" [5]] =
        List.zipWith (fun e n => Entry.mk (outputName e n)
          ((readByName entries e.name).getD [])) (sortedFiles entries) ["a", "b"] :=
  rename_no_partial_output
    (some [FEntry.mk "1.png" none, FEntry.mk "1.png" (some [5])]) ["a", "b"]
    [Entry.mk "a.png" [5], Entry.mk "b.png" [5]] (by decide)

/-- C8: the operation is deterministic: on equal inputs the results are
equal, successful outputs agree on identifiers and contents, and failing
runs fail the same way. -/
theorem rename_deterministic (input1 input2 : Option (List FEntry))
    (names1 names2 : List String) (h1 : input1 = input2) (h2 : names1 = names2) :
    processAndRenameZip input1 names1 = processAndRenameZip input2 names2 ∧
    (∀ out1 out2, processAndRenameZip input1 names1 = .ok out1 →
      processAndRenameZip input2 names2 = .ok out2 →
      out1.map Entry.name = out2.map Entry.name ∧
      out1.map Entry.content = out2.map Entry.content) ∧
    (∀ e1 e2, processAndRenameZip input1 names1 = .error e1 →
      processAndRenameZip input2 names2 = .error e2 → e1 = e2) := by
  subst h1
  subst h2
  refine ⟨rfl, ?_, ?_⟩
  · intro out1 out2 ho1 ho2
    rw [ho1] at ho2
    have : out1 = out2 := by simpa using ho2
    subst this
    exact ⟨rfl, rfl⟩
  · intro e1 e2 he1 he2
    rw [he1] at he2
    simpa using he2

/-- C8 witness: two invocations on one concrete input. -/
theorem rename_deterministic_witness :
    processAndRenameZip (some [⟨"1.png", some [1]⟩]) ["a"] =
      processAndRenameZip (some [⟨"1.png", some [1]⟩]) ["a"] ∧
    (∀ out1 out2, processAndRenameZip (some [⟨"1.png", some [1]⟩]) ["a"] = .ok out1 →
      processAndRenameZip (some [⟨"1.png", some [1]⟩]) ["a"] = .ok out2 →
      out1.map Entry.name = out2.map Entry.name ∧
      out1.map Entry.content = out2.map Entry.content) ∧
    (∀ e1 e2, processAndRenameZip (some [⟨"1.png", some [1]⟩]) ["a"] = .error e1 →
      processAndRenameZip (some [⟨"1.png", some [1]⟩]) ["a"] = .error e2 → e1 = e2) :=
  rename_deterministic _ _ _ _ rfl rfl

/-- C9: colliding output identifiers are not rejected, merged or
dropped: when several stripped names plus extensions coincide, the
operation still succeeds with one output entry per input entry and
exactly the colliding identifiers in its name list. -/
theorem rename_duplicate_names_ok (entries : List FEntry)
    (names : List String)
    (hlen : names.length = (filterFiles entries).length)
    (hread : ∀ e ∈ entries, e.content ≠ none)
    (_hdup : ¬ (List.zipWith (fun e n => outputName e n)
      (sortedFiles entries) names).Nodup) :
    ∃ out, processAndRenameZip (some entries) names = .ok out ∧
      out.length = (filterFiles entries).length ∧
      out.map Entry.name =
        List.zipWith (fun e n => outputName e n) (sortedFiles entries) names := by
  refine ⟨_, process_ok_eq entries names hlen.symm
    (fun e he => readByName_readable entries hread (List.mem_of_mem_filter he)),
    ?_, ?_⟩
  · rw [List.length_zipWith, length_sortedFiles, hlen]
    simp
  · rw [List.map_zipWith]

/-- C9 witness: both names strip to "x", so both outputs are "x.png". -/
theorem rename_duplicate_names_ok_witness :
    ∃ out, processAndRenameZip
        (some [⟨"1.png", some [1]⟩, ⟨"2.png", some [2]⟩]) ["x", " x "] = .ok out ∧
      out.length = (filterFiles [⟨"1.png", some [1]⟩, ⟨"2.png", some [2]⟩]).length ∧
      out.map Entry.name =
        List.zipWith (fun e n => outputName e n)
          (sortedFiles [⟨"1.png", some [1]⟩, ⟨"2.png", some [2]⟩]) ["x", " x "] :=
  rename_duplicate_names_ok _ _ (by decide) (by decide) (by decide)

/-- C10: a name that is empty or all whitespace still succeeds and the
corresponding output identifier is exactly the splitext extension of
the source entry, the empty string when the entry has none. -/
theorem rename_whitespace_name (entries : List FEntry) (names : List String)
    (hlen : names.length = (filterFiles entries).length)
    (hread : ∀ e ∈ entries, e.content ≠ none) :
    ∃ out, processAndRenameZip (some entries) names = .ok out ∧
      out.length = names.length ∧
      ∀ i (hi : i < out.length) (hj : i < (sortedFiles entries).length)
        (hk : i < names.length),
        (∀ c ∈ (names.get ⟨i, hk⟩).data, pyIsSpace c = true) →
        (out.get ⟨i, hi⟩).name = splitextExt ((sortedFiles entries).get ⟨i, hj⟩).name := by
  refine ⟨_, process_ok_eq entries names hlen.symm
    (fun e he => readByName_readable entries hread (List.mem_of_mem_filter he)),
    ?_, ?_⟩
  · rw [List.length_zipWith, length_sortedFiles, ← hlen]
    simp
  · intro i hi hj hk hws
    rw [List.get_eq_getElem, List.get_eq_getElem, List.getElem_zipWith]
    show outputName _ _ = _
    unfold outputName
    rw [pyStrip_eq_empty (by simpa using hws)]
    rfl

/-- C10 witness: an all-whitespace name on an entry with an extension
gives identifier ".png"; on an entry without one it gives "". -/
theorem rename_whitespace_name_witness :
    ∃ out, processAndRenameZip
        (some [⟨"1.png", some [1]⟩, ⟨"report", some [2]⟩]) [" ", "  "] = .ok out ∧
      out.length = ([" ", "  "] : List String).length ∧
      ∀ i (hi : i < out.length)
        (hj : i < (sortedFiles [⟨"1.png", some [1]⟩, ⟨"report", some [2]⟩]).length)
        (hk : i < ([" ", "  "] : List String).length),
        (∀ c ∈ (([" ", "  "] : List String).get ⟨i, hk⟩).data, pyIsSpace c = true) →
        (out.get ⟨i, hi⟩).name = splitextExt
          ((sortedFiles [⟨"1.png", some [1]⟩, ⟨"report", some [2]⟩]).get ⟨i, hj⟩).name :=
  rename_whitespace_name _ _ (by decide) (by decide)
